import Mathlib

/-!
Shallow embedding of the `fp` package's parallel primitives (`parallel.go`),
sequential primitives (`map.go`, `reduce.go`, `collections.go`, `filter.go`)
and the lazy `Stream` pipeline (`stream.go`).

Concurrency is embedded by making the scheduler's nondeterministic choices
explicit parameters (e.g. the order in which worker writes land, the order in
which results arrive on a channel, how far the dispatcher got before observing
cancellation).  Theorems quantify over those parameters, restricted by
hypotheses stating exactly which parameter values are reachable under Go's
channel/select semantics.
-/

namespace Funky

/-- Model of `ParallelConfig` from `parallel.go`.  Worker count and buffer size are Go
`int`s; the claims under verification restrict attention to worker counts ≥ 1,
so both fields are modelled as `Nat`. -/
structure ParallelConfig where
  WorkerCount : Nat
  BufferSize : Nat

/-- Sequential `Map` from `map.go`: builds a slice of the same length with
`result[i] = mapper(slice[i])`.  The Go nil/empty distinction is dropped (both
become `[]`, and the loop body is exactly `List.map`). -/
def Map (slice : List τ) (mapper : τ → ρ) : List ρ :=
  slice.map mapper

/-- Sequential `Filter`: appends `item` to the result whenever
`predicate item` is true, preserving order — exactly `List.filter`. -/
def Filter (slice : List τ) (predicate : τ → Bool) : List τ :=
  slice.filter predicate

/-- Sequential `Reduce` from `reduce.go`: a left fold starting at `initial`. -/
def Reduce (slice : List τ) (reducer : ρ → τ → ρ) (initial : ρ) : ρ :=
  slice.foldl reducer initial

/-- Loop body of `Chunk` from `collections.go` for a positive size `sz + 1`:
repeatedly take the next `sz + 1` elements.  (The `+ 1` makes termination
structural in the remaining length.) -/
def chunkGo (sz : Nat) (xs : List τ) : List (List τ) :=
  if h : xs.length = 0 then []
  else xs.take (sz + 1) :: chunkGo sz (xs.drop (sz + 1))
termination_by xs.length
decreasing_by
  simp only [List.length_drop]
  omega

/-- Model of `Chunk` from `collections.go`: splits `slice` into consecutive chunks of
at most `size` elements; returns `[]` for `size = 0` (Go returns nil for
`size <= 0`). -/
def Chunk (slice : List τ) (size : Nat) : List (List τ) :=
  if size = 0 then [] else chunkGo (size - 1) slice

/-- The effect of the worker writes in `MapParallelWithConfig`'s pool branch:
each dispatched index `idx` is written as `result[idx] = g idx` (in the code,
`result[idx] = mapper(slice[idx])`).  `order` is the sequence in which the
writes land, a scheduler choice. -/
def applyWrites (order : List Nat) (g : Nat → ρ) (init : List ρ) : List ρ :=
  order.foldl (fun acc idx => acc.set idx (g idx)) init

/-- Model of `MapParallelWithConfig` from `parallel.go`.  Empty input returns nil;
input shorter than the worker count falls back to sequential `Map`; otherwise
a preallocated result (`make([]R, len)`, modelled as `replicate length zero`)
receives the per-index writes `result[idx] = mapper slice[idx]` in the
scheduler-chosen order `order` (each index is sent to the jobs channel exactly
once, so reachable `order`s are permutations of `range length`). -/
def MapParallelWithConfig [Inhabited τ] (slice : List τ) (mapper : τ → ρ)
    (config : ParallelConfig) (order : List Nat) (zero : ρ) : List ρ :=
  if slice.length = 0 then []
  else if slice.length < config.WorkerCount then Map slice mapper
  else applyWrites order (fun idx => mapper (slice.get! idx))
    (List.replicate slice.length zero)

/-- The `resultMap` built by `FilterParallel`'s collector: workers send
`(index, item, keep)` records and the collector stores them keyed by index.
`arrival` is the scheduler-chosen order in which records arrive. -/
def buildResultMap [Inhabited τ] (slice : List τ) (predicate : τ → Bool)
    (arrival : List Nat) : Nat → Option (τ × Bool) :=
  arrival.foldl
    (fun acc idx => fun j =>
      if j = idx then some (slice.get! idx, predicate (slice.get! idx)) else acc j)
    (fun _ => none)

/-- Model of `FilterParallel` from `parallel.go`.  Empty input returns nil; input
shorter than the worker count falls back to sequential `Filter`; otherwise the
workers' `(index, item, keep)` records are collected into `resultMap` in
arrival order, then one ordered pass over `i = 0 .. len-1` appends
`resultMap[i].item` whenever the record exists and `keep` holds. -/
def FilterParallel [Inhabited τ] (slice : List τ) (predicate : τ → Bool)
    (config : ParallelConfig) (arrival : List Nat) : List τ :=
  if slice.length = 0 then []
  else if slice.length < config.WorkerCount then Filter slice predicate
  else
    let m := buildResultMap slice predicate arrival
    (List.range slice.length).filterMap (fun i =>
      match m i with
      | some (item, keep) => if keep then some item else none
      | none => none)

/-- Model of `ReduceParallel` from `parallel.go`.  Empty input returns the identity;
a singleton returns `slice[0]`; input shorter than the worker count is folded
sequentially; otherwise the slice is chunked into pieces of size
`len / WorkerCount` (floored, clamped to at least 1), each chunk is folded
from `identity`, the per-chunk results land at their chunk's index (writes to
distinct preallocated slots, hence schedule-independent), and the chunk
results are folded from `identity` in chunk order. -/
def ReduceParallel (slice : List τ) (reducer : τ → τ → τ) (identity : τ)
    (config : ParallelConfig) : τ :=
  if slice.length = 0 then identity
  else if slice.length = 1 then slice.headD identity
  else if slice.length < config.WorkerCount then slice.foldl reducer identity
  else
    let chunkSize := slice.length / config.WorkerCount
    let chunkSize := if chunkSize = 0 then 1 else chunkSize
    let chunks := Chunk slice chunkSize
    let results := chunks.map (fun c => c.foldl reducer identity)
    results.foldl reducer identity

/-- Model of `ForEachParallel` from `parallel.go` returns nothing; what the claims
observe is which items the action is invoked on.  This definition returns that
list: empty input short-circuits before any worker is spawned, otherwise every
item is sent to the jobs channel and invoked exactly once (invocation order
across workers is a scheduler choice; the collection of invoked items is not).
-/
def ForEachParallelCalls (slice : List τ) (_config : ParallelConfig) : List τ :=
  if slice.length = 0 then [] else slice

/-- Errors observable from `MapWithContext`: the context's cancellation error
(`ctx.Err()`) or an error returned by the per-item mapper. -/
inductive GoErr (ε : Type) where
  | ctxErr : GoErr ε
  | mapErr : ε → GoErr ε
deriving DecidableEq

/-- Resolution of the final `select` in `MapWithContext` (and
`BatchProcessor.Process`): the `done`, `errors`, or `ctx.Done()` case. -/
inductive FinalPick where
  | pickDone : FinalPick
  | pickErr : FinalPick
  | pickCtx : FinalPick
deriving DecidableEq

/-- Scheduler choices of one `MapWithContext` execution.  `cancelled` is the
context state (modelled as fixed for the whole run); `sent` is how many
indices the dispatcher goroutine sent before exiting; `processed` is how many
of those the workers received and mapped (jobs is a FIFO channel, so the
received indices are the prefix `0 .. processed-1`); `ctxAborts` counts
workers that took their `ctx.Done()` select case (each pushes `ctx.Err()` on
the errors channel); `pick` resolves the final `select`. -/
structure MWCSched where
  cancelled : Bool
  sent : Nat
  processed : Nat
  ctxAborts : Nat
  pick : FinalPick

/-- Contents of the buffered `errors` channel when the final `select` runs:
one `mapErr` per processed index on which the mapper failed (workers push the
error before `wg.Done`, and the channel has capacity `len(slice)`, so pushes
never block and are always visible once `done` closes), plus one `ctxErr` per
worker that took its `ctx.Done()` case. -/
def mwcErrors (slice : List τ) (mapper : τ → Except ε ρ) (s : MWCSched) :
    List (GoErr ε) :=
  (slice.take s.processed).filterMap (fun t =>
    match mapper t with
    | .error e => some (GoErr.mapErr e)
    | .ok _ => none)
  ++ List.replicate s.ctxAborts GoErr.ctxErr

/-- Number of processed indices on which the mapper failed (each such failure
terminates one worker). -/
def mwcErrCount (slice : List τ) (mapper : τ → Except ε ρ) (processed : Nat) :
    Nat :=
  ((slice.take processed).filter (fun t =>
    match mapper t with
    | .error _ => true
    | .ok _ => false)).length

/-- The preallocated result slice (`make([]R, len)`) after the workers are
done: index `i` holds the mapper's value if `i` was processed successfully,
and the zero value `zero` otherwise (unprocessed, or the worker errored before
writing). -/
def mwcResult [Inhabited τ] (slice : List τ) (mapper : τ → Except ε ρ)
    (s : MWCSched) (zero : ρ) : List ρ :=
  (List.range slice.length).map (fun i =>
    if i < s.processed then
      match mapper (slice.get! i) with
      | .ok r => r
      | .error _ => zero
    else zero)

/-- Model of `MapWithContext` from `parallel.go`, as a function of the scheduler
choices `s`.  Empty input returns `(nil, nil)` before anything is spawned.
Otherwise the final `select` resolves per `s.pick`: the `done` case returns
the first queued error if any, else the result slice with a nil error; the
`errors` case returns a queued error; the `ctx.Done()` case returns
`ctx.Err()`.  The mapper is modelled as a pure function of the item (its
context argument is dropped).  Which picks are reachable is `MWCValid`. -/
def MapWithContext [Inhabited τ] (slice : List τ) (mapper : τ → Except ε ρ)
    (s : MWCSched) (zero : ρ) : Except (GoErr ε) (List ρ) :=
  if slice.length = 0 then .ok []
  else
    match s.pick with
    | .pickDone =>
      match mwcErrors slice mapper s with
      | [] => .ok (mwcResult slice mapper s zero)
      | e :: _ => .error e
    | .pickErr => .error ((mwcErrors slice mapper s).headD GoErr.ctxErr)
    | .pickCtx => .error GoErr.ctxErr

/-- Which scheduler choices are reachable under Go's channel/select semantics
for `MapWithContext` with worker count `W`:
the dispatcher sends at most all indices and exits early only on
cancellation; workers receive a prefix of what was sent; workers die only via
a mapper error or (when cancelled) a `ctx.Done()` select case, and there are
only `W` of them; processing stops short of what was sent only if every
worker died; the `done` case requires every worker to have returned (all jobs
drained, or all workers dead); the `errors` case requires a queued error; the
`ctx.Done()` case requires cancellation. -/
def MWCValid (W : Nat) (slice : List τ) (mapper : τ → Except ε ρ)
    (s : MWCSched) : Prop :=
  s.sent ≤ slice.length ∧
  (s.cancelled = false → s.sent = slice.length ∧ s.ctxAborts = 0) ∧
  s.processed ≤ s.sent ∧
  mwcErrCount slice mapper s.processed + s.ctxAborts ≤ W ∧
  (s.processed < s.sent →
    mwcErrCount slice mapper s.processed + s.ctxAborts = W) ∧
  (s.pick = FinalPick.pickDone →
    s.processed = s.sent ∨
      mwcErrCount slice mapper s.processed + s.ctxAborts = W) ∧
  (s.pick = FinalPick.pickErr → mwcErrors slice mapper s ≠ []) ∧
  (s.pick = FinalPick.pickCtx → s.cancelled = true)

/-- Model of `BatchProcessor` from `parallel.go`: a batch size, a fallible batch
transform, and a parallelism level. -/
structure BatchProcessor (τ ρ ε : Type) where
  batchSize : Nat
  processor : List τ → Except ε (List ρ)
  parallelism : Nat

/-- Worker-pool processing of the batches of `BatchProcessor.Process`: each
batch index is processed once, `results[batchIdx]` receives the transform's
output (distinct preallocated slots, schedule-independent), a failing batch
aborts with its error, and on success the per-batch outputs are concatenated
in batch-index order.  (Which of several concurrent batch errors is surfaced
is a scheduler choice in Go; this model returns the first in batch order, and
the claims proved only concern runs without competing errors.) -/
def processBatches (processor : List τ → Except ε (List ρ)) :
    List (List τ) → Except ε (List ρ)
  | [] => .ok []
  | c :: cs =>
    match processor c with
    | .error e => .error e
    | .ok out =>
      match processBatches processor cs with
      | .error e => .error e
      | .ok rest => .ok (out ++ rest)

/-- Model of `BatchProcessor.Process` from `parallel.go` for an uncancelled context:
empty input returns `(nil, nil)` immediately; otherwise the input is chunked
into batches of `batchSize` and the batches are processed by the worker pool.
-/
def BatchProcessor.Process (bp : BatchProcessor τ ρ ε) (data : List τ) :
    Except ε (List ρ) :=
  if data.length = 0 then .ok []
  else processBatches bp.processor (Chunk data bp.batchSize)

/-- Model of `RateLimiter` from `parallel.go`: the buffered `tokens` channel, as its
current fill `tokens` and its capacity `cap`. -/
structure RateLimiter where
  tokens : Nat
  cap : Nat
deriving DecidableEq

/-- Model of `NewRateLimiter`: a `tokens` channel of capacity `rps`, filled with `rps`
tokens before the refill goroutine starts — the bucket starts full. -/
def NewRateLimiter (rps : Nat) : RateLimiter :=
  ⟨rps, rps⟩

/-- Model of `RateLimiter.Wait` with a live context: receiving from the `tokens`
channel succeeds immediately (without blocking) exactly when a token is
buffered; otherwise the call blocks (`none`) until a refill tick. -/
def waitTry (rl : RateLimiter) : Option RateLimiter :=
  if 0 < rl.tokens then some ⟨rl.tokens - 1, rl.cap⟩ else none

/-- One tick of the refill goroutine: `select { case tokens <- token; default }`
adds one token when the channel has room and drops it (without blocking) when
the channel is full. -/
def refillTick (rl : RateLimiter) : RateLimiter :=
  if rl.tokens < rl.cap then ⟨rl.tokens + 1, rl.cap⟩ else rl

/-- Runs `n` consecutive `Wait` calls, each required to succeed immediately. -/
def waitN : Nat → RateLimiter → Option RateLimiter
  | 0, rl => some rl
  | n + 1, rl => (waitTry rl).bind (waitN n)

/-- One stage of a `Stream` pipeline from `stream.go`.  Each constructor
records the closure captured by the corresponding stage-adding method.  (The
order-preserving, sequential stages suffice for the claims; the `Parallel`
and `WithContext` stages are not needed by them.) -/
inductive Stage (α : Type) where
  | mapS : (α → α) → Stage α
  | filterS : (α → Bool) → Stage α
  | takeS : Nat → Stage α
  | skipS : Nat → Stage α
  | distinctS : (α → α → Bool) → Stage α
  | bufferS : Nat → Stage α

/-- Loop of the `Take(n)` stage: forward items while `count < n`, then stop
consuming. -/
def takeLoop (n : Nat) : Nat → List α → List α
  | _, [] => []
  | count, x :: xs => if n ≤ count then [] else x :: takeLoop n (count + 1) xs

/-- Loop of the `Skip(n)` stage: forward items once `count ≥ n`. -/
def skipLoop (n : Nat) : Nat → List α → List α
  | _, [] => []
  | count, x :: xs =>
    if n ≤ count then x :: skipLoop n (count + 1) xs
    else skipLoop n (count + 1) xs

/-- Loop of the `Distinct(equals)` stage: forward an item unless it equals a
previously seen one, appending forwarded items to `seen`. -/
def distinctLoop (equals : α → α → Bool) (seen : List α) : List α → List α
  | [] => []
  | x :: xs =>
    if seen.any (fun s => equals x s) then distinctLoop equals seen xs
    else x :: distinctLoop equals (seen ++ [x]) xs

/-- Denotation of one stage on the ordered sequence flowing through its
channel.  `Map`/`Filter` loops are exactly `List.map`/`List.filter`;
`Buffer(size)` only changes channel capacity, not contents or order. -/
def stageSem : Stage α → List α → List α
  | .mapS f => fun l => l.map f
  | .filterS p => fun l => l.filter p
  | .takeS n => takeLoop n 0
  | .skipS n => skipLoop n 0
  | .distinctS eq => distinctLoop eq []
  | .bufferS _ => fun l => l

/-- A Go backing array for a `[]Stage` slice: its capacity and the prefix of
slots written so far. -/
structure ArrRec (σ : Type) where
  cap : Nat
  data : List σ

/-- The store of backing arrays; array ids are list positions, allocation
appends. -/
abbrev Heap (σ : Type) : Type := List (ArrRec σ)

/-- A Go slice value: a pointer to its backing array plus its length. -/
structure GoSlice where
  arr : Nat
  len : Nat
deriving DecidableEq

/-- Writing slot `p` of a backing array: overwrite if the slot was written
before (possibly by an append through a sibling slice), extend otherwise. -/
def writeAt (data : List σ) (p : Nat) (x : σ) : List σ :=
  if p < data.length then data.set p x else data ++ [x]

/-- Go's `append` capacity growth for small element counts: capacity 0 grows
to 1, otherwise it doubles. -/
def growCap (c : Nat) : Nat :=
  if c = 0 then 1 else 2 * c

/-- Go's `append(s, x)`: if the backing array has spare capacity the element
is written in place at slot `s.len` — mutating the array shared with every
other slice over it — and the same array is kept; otherwise a new array of
grown capacity is allocated, the first `s.len` elements are copied, and `x`
is written after them. -/
def appendStage (h : Heap σ) (s : GoSlice) (x : σ) : Heap σ × GoSlice :=
  let r := h.getD s.arr ⟨0, []⟩
  if s.len < r.cap then
    (h.set s.arr ⟨r.cap, writeAt r.data s.len x⟩, ⟨s.arr, s.len + 1⟩)
  else
    (h ++ [⟨growCap r.cap, r.data.take s.len ++ [x]⟩], ⟨h.length, s.len + 1⟩)

/-- A `Stream` source from `stream.go`: `NewStream`'s slice source fills a
fresh channel from the slice on every call; `NewStreamFromChannel` returns
the one wrapped channel on every call. -/
inductive Src (α : Type) where
  | ofSlice : List α → Src α
  | ofChannel : Nat → Src α

/-- The contents still buffered in each named channel (channels are modelled
as closed, so a drained channel yields no further items). -/
abbrev ChanSt (α : Type) : Type := Nat → List α

/-- Model of `Stream` from `stream.go`: a source and a `pipeline []func` Go slice of
stages (the slice lives in the stage heap). -/
structure StreamM (α : Type) where
  src : Src α
  pipeline : GoSlice

/-- Model of `NewStream`: fresh empty pipeline slice (`[]func{}`: length 0,
capacity 0), slice-backed source. -/
def NewStream (h : Heap (Stage α)) (slice : List α) :
    Heap (Stage α) × StreamM α :=
  (h ++ [⟨0, []⟩], ⟨Src.ofSlice slice, ⟨h.length, 0⟩⟩)

/-- Model of `NewStreamFromChannel`: fresh empty pipeline slice, source returning the
given channel itself on every call. -/
def NewStreamFromChannel (h : Heap (Stage α)) (cid : Nat) :
    Heap (Stage α) × StreamM α :=
  (h ++ [⟨0, []⟩], ⟨Src.ofChannel cid, ⟨h.length, 0⟩⟩)

/-- Model of `Stream.Map`: `append` one map stage to the pipeline slice and return a
new Stream value with the appended slice. -/
def StreamM.Map (h : Heap (Stage α)) (s : StreamM α) (mapper : α → α) :
    Heap (Stage α) × StreamM α :=
  let hp := appendStage h s.pipeline (Stage.mapS mapper)
  (hp.1, ⟨s.src, hp.2⟩)

/-- Model of `Stream.Filter`: `append` one filter stage to the pipeline slice. -/
def StreamM.Filter (h : Heap (Stage α)) (s : StreamM α) (predicate : α → Bool) :
    Heap (Stage α) × StreamM α :=
  let hp := appendStage h s.pipeline (Stage.filterS predicate)
  (hp.1, ⟨s.src, hp.2⟩)

/-- Model of `Stream.Take`: `append` one take stage to the pipeline slice. -/
def StreamM.Take (h : Heap (Stage α)) (s : StreamM α) (n : Nat) :
    Heap (Stage α) × StreamM α :=
  let hp := appendStage h s.pipeline (Stage.takeS n)
  (hp.1, ⟨s.src, hp.2⟩)

/-- The stage list a Stream value sees: the first `len` slots of its backing
array. -/
def stagesOf (h : Heap (Stage α)) (s : StreamM α) : List (Stage α) :=
  ((h.getD s.pipeline.arr ⟨0, []⟩).data).take s.pipeline.len

/-- Calling a Stream's source: a slice source regenerates its contents and
leaves the channel store unchanged; a channel source yields whatever is still
buffered and leaves the channel drained. -/
def sourcePull (cs : ChanSt α) : Src α → List α × ChanSt α
  | .ofSlice l => (l, cs)
  | .ofChannel cid => (cs cid, fun j => if j = cid then [] else cs j)

/-- Model of `Stream.Collect`: call the source, thread the sequence through the stages
in order, and return the drained result (plus the channel store after the
run). -/
def StreamM.Collect (h : Heap (Stage α)) (cs : ChanSt α) (s : StreamM α) :
    List α × ChanSt α :=
  let pulled := sourcePull cs s.src
  ((stagesOf h s).foldl (fun l st => stageSem st l) pulled.1, pulled.2)

/-- Decidable equality for `Except`, used to evaluate batch outcomes on
concrete inputs. -/
instance exceptDecEq [DecidableEq ε] [DecidableEq α] : DecidableEq (Except ε α)
  | .error a, .error b =>
    if h : a = b then .isTrue (by rw [h])
    else .isFalse (fun hh => h (Except.error.inj hh))
  | .error _, .ok _ => .isFalse (fun hh => Except.noConfusion hh)
  | .ok _, .error _ => .isFalse (fun hh => Except.noConfusion hh)
  | .ok a, .ok b =>
    if h : a = b then .isTrue (by rw [h])
    else .isFalse (fun hh => h (Except.ok.inj hh))

/-- Concrete `BatchProcessor` used by the C5 witness: batch size 3,
always-successful doubling transform, parallelism 2. -/
def c5bp : BatchProcessor Nat Nat Nat :=
  ⟨3, fun c => Except.ok (c.map (fun x => 2 * x)), 2⟩

/-- C6 scenario, step 0: `s0 := NewStream([]int{1})` (pipeline slice of
length 0, capacity 0). -/
def c6s0 : Heap (Stage Nat) × StreamM Nat :=
  NewStream [] [1]

/-- C6 scenario, step 1: `s1 := s0.Map(id)` (pipeline length 1,
capacity 1). -/
def c6s1 : Heap (Stage Nat) × StreamM Nat :=
  StreamM.Map c6s0.1 c6s0.2 (fun x => x)

/-- C6 scenario, step 2: `s2 := s1.Map(id)` (pipeline length 2,
capacity 2). -/
def c6s2 : Heap (Stage Nat) × StreamM Nat :=
  StreamM.Map c6s1.1 c6s1.2 (fun x => x)

/-- C6 scenario, step 3: `s3 := s2.Map(id)` (pipeline length 3, capacity 4 —
one slot of spare capacity). -/
def c6s3 : Heap (Stage Nat) × StreamM Nat :=
  StreamM.Map c6s2.1 c6s2.2 (fun x => x)

/-- C6 scenario, step 4: `s4 := s3.Map(x+1)` — `append` writes the map stage
into the spare slot of `s3`'s backing array in place. -/
def c6s4 : Heap (Stage Nat) × StreamM Nat :=
  StreamM.Map c6s3.1 c6s3.2 (fun x => x + 1)

/-- C6 scenario, step 5: `s5 := s3.Filter(false)` — derived from the same
`s3` after `s4`; `append` writes the filter stage into the same spare slot,
overwriting `s4`'s fourth stage. -/
def c6s5 : Heap (Stage Nat) × StreamM Nat :=
  StreamM.Filter c6s4.1 c6s3.2 (fun _ => false)

/-- C4 scenario: a mapper that succeeds on every item (so that the outcome
below cannot be blamed on an item failure). -/
def c4mapper : Nat → Except Nat Nat :=
  fun x => Except.ok x

/-- C4 scenario schedule: context cancelled from the start; the dispatcher's
first `select` takes `ctx.Done()` and exits, closing `jobs` with nothing sent
(`sent = 0`); both workers' `select`s take the closed-`jobs` case and return
cleanly (`processed = 0`, `ctxAborts = 0`); the final `select` takes `done`.
-/
def c4sched : MWCSched :=
  ⟨true, 0, 0, 0, FinalPick.pickDone⟩

/-! ### List index helpers -/

theorem get?_set_self : ∀ (l : List σ) (i : Nat) (a : σ), i < l.length →
    (l.set i a).get? i = some a
  | [], i, _, h => absurd h (by simp)
  | _ :: _, 0, _, _ => rfl
  | _ :: xs, i + 1, a, h =>
    get?_set_self xs i a (Nat.lt_of_succ_lt_succ (by simpa using h))

theorem get?_set_other : ∀ (l : List σ) (i j : Nat) (a : σ), i ≠ j →
    (l.set i a).get? j = l.get? j
  | [], _, _, _, _ => rfl
  | _ :: _, 0, 0, _, hne => absurd rfl hne
  | _ :: _, 0, _ + 1, _, _ => rfl
  | _ :: _, _ + 1, 0, _, _ => rfl
  | _ :: xs, i + 1, j + 1, a, hne =>
    get?_set_other xs i j a (fun he => hne (by simp [he]))

theorem get?_eq_some_get! [Inhabited σ] : ∀ (l : List σ) (n : Nat),
    n < l.length → l.get? n = some (l.get! n)
  | [], n, h => absurd h (by simp)
  | _ :: _, 0, _ => rfl
  | _ :: xs, n + 1, h =>
    get?_eq_some_get! xs n (Nat.lt_of_succ_lt_succ (by simpa using h))

/-! ### C1 helpers: `applyWrites` -/

theorem applyWrites_length (g : Nat → ρ) :
    ∀ (order : List Nat) (init : List ρ),
      (applyWrites order g init).length = init.length
  | [], _ => rfl
  | i :: rest, init => by
    show (applyWrites rest g (init.set i (g i))).length = init.length
    rw [applyWrites_length g rest (init.set i (g i))]
    exact List.length_set init i (g i)

theorem applyWrites_get?_not_mem (g : Nat → ρ) :
    ∀ (order : List Nat) (init : List ρ) (j : Nat), j ∉ order →
      (applyWrites order g init).get? j = init.get? j
  | [], _, _, _ => rfl
  | i :: rest, init, j, hj => by
    show (applyWrites rest g (init.set i (g i))).get? j = init.get? j
    have hji : i ≠ j := fun he => hj (he ▸ List.mem_cons_self i rest)
    have hjr : j ∉ rest := fun hm => hj (List.mem_cons_of_mem i hm)
    rw [applyWrites_get?_not_mem g rest (init.set i (g i)) j hjr]
    exact get?_set_other init i j (g i) hji

theorem applyWrites_get?_mem (g : Nat → ρ) :
    ∀ (order : List Nat) (init : List ρ) (j : Nat), j ∈ order →
      j < init.length → (applyWrites order g init).get? j = some (g j)
  | [], _, _, hj, _ => absurd hj (by simp)
  | i :: rest, init, j, hj, hlen => by
    show (applyWrites rest g (init.set i (g i))).get? j = some (g j)
    by_cases hjr : j ∈ rest
    · exact applyWrites_get?_mem g rest (init.set i (g i)) j hjr
        (by rw [List.length_set]; exact hlen)
    · have hij : j = i := by
        rcases List.mem_cons.mp hj with h | h
        · exact h
        · exact absurd h hjr
      subst hij
      rw [applyWrites_get?_not_mem g rest (init.set j (g j)) j hjr]
      exact get?_set_self init j (g j) hlen

/-- C1: for every sequence, mapper, config with worker count ≥ 1 and every
reachable write order (each index dispatched exactly once, i.e. a permutation
of `range (length slice)`), `MapParallelWithConfig` element-wise equals the
sequential `Map`: same length and `i`-th output `mapper (slice[i])`, including
empty and singleton inputs. -/
theorem mapParallelWithConfig_eq_map [Inhabited τ] [Inhabited ρ]
    (slice : List τ) (mapper : τ → ρ) (config : ParallelConfig)
    (order : List Nat) (zero : ρ)
    (hw : 1 ≤ config.WorkerCount)
    (hord : order.Perm (List.range slice.length)) :
    MapParallelWithConfig slice mapper config order zero = Map slice mapper ∧
    (MapParallelWithConfig slice mapper config order zero).length =
      slice.length ∧
    ∀ i, i < slice.length →
      (MapParallelWithConfig slice mapper config order zero).get! i =
        mapper (slice.get! i) := by
  have hmain :
      MapParallelWithConfig slice mapper config order zero = Map slice mapper := by
    unfold MapParallelWithConfig
    by_cases h0 : slice.length = 0
    · rw [if_pos h0]
      have : slice = [] := List.length_eq_zero.mp h0
      simp [this, Map]
    · rw [if_neg h0]
      by_cases hsmall : slice.length < config.WorkerCount
      · rw [if_pos hsmall]
      · rw [if_neg hsmall]
        apply List.ext_get?
        intro j
        by_cases hj : j < slice.length
        · have hmem : j ∈ order := hord.mem_iff.mpr (List.mem_range.mpr hj)
          rw [applyWrites_get?_mem _ order _ j hmem
            (by rw [List.length_replicate]; exact hj)]
          rw [Map, List.get?_map, get?_eq_some_get! slice j hj]
          rfl
        · have hle : slice.length ≤ j := Nat.le_of_not_lt hj
          rw [List.get?_eq_none.mpr, List.get?_eq_none.mpr]
          · rw [Map, List.length_map]; exact hle
          · rw [applyWrites_length, List.length_replicate]; exact hle
  refine ⟨hmain, ?_, ?_⟩
  · rw [hmain, Map, List.length_map]
  · intro i hi
    rw [hmain]
    have := get?_eq_some_get! (Map slice mapper) i
      (by rw [Map, List.length_map]; exact hi)
    rw [Map, List.get?_map, get?_eq_some_get! slice i hi] at this
    simpa [Map] using this.symm

/-! ### C2 helpers: `buildResultMap` and index-based filtering -/

theorem buildResultMap_foldl [Inhabited τ] (slice : List τ)
    (predicate : τ → Bool) :
    ∀ (arrival : List Nat) (acc : Nat → Option (τ × Bool)) (i : Nat),
      (arrival.foldl
        (fun acc idx => fun j =>
          if j = idx then some (slice.get! idx, predicate (slice.get! idx))
          else acc j) acc) i =
      if i ∈ arrival then some (slice.get! i, predicate (slice.get! i))
      else acc i
  | [], acc, i => by simp
  | w :: rest, acc, i => by
    rw [List.foldl_cons,
      buildResultMap_foldl slice predicate rest _ i]
    by_cases hir : i ∈ rest
    · simp [hir]
    · by_cases hiw : i = w
      · simp [hir, hiw]
      · simp [hir, hiw]

theorem buildResultMap_eq [Inhabited τ] (slice : List τ)
    (predicate : τ → Bool) (arrival : List Nat) (i : Nat) (hi : i ∈ arrival) :
    buildResultMap slice predicate arrival i =
      some (slice.get! i, predicate (slice.get! i)) := by
  rw [buildResultMap, buildResultMap_foldl slice predicate arrival _ i,
    if_pos hi]

theorem filter_eq_range_filterMap [Inhabited τ] (predicate : τ → Bool) :
    ∀ slice : List τ,
      slice.filter predicate =
        (List.range slice.length).filterMap (fun i =>
          if predicate (slice.get! i) then some (slice.get! i) else none)
  | [] => rfl
  | x :: xs => by
    rw [List.length_cons, List.range_succ_eq_map, List.filterMap_cons,
      List.filterMap_map, List.filter_cons]
    have hcomp :
        ((fun i =>
            if predicate ((x :: xs).get! i) then some ((x :: xs).get! i)
            else none) ∘ Nat.succ) =
          (fun i => if predicate (xs.get! i) then some (xs.get! i) else none) :=
      rfl
    rw [hcomp, ← filter_eq_range_filterMap predicate xs]
    by_cases hx : predicate x <;> simp [hx]

/-- C2: for every sequence, predicate, config with worker count ≥ 1 and every
reachable arrival order of the workers' `(index, item, keep)` records (each
index processed exactly once, i.e. a permutation of `range (length slice)`),
`FilterParallel` equals the sequential `Filter` as an ordered sequence. -/
theorem filterParallel_eq_filter [Inhabited τ] (slice : List τ)
    (predicate : τ → Bool) (config : ParallelConfig) (arrival : List Nat)
    (hw : 1 ≤ config.WorkerCount)
    (harr : arrival.Perm (List.range slice.length)) :
    FilterParallel slice predicate config arrival = Filter slice predicate := by
  unfold FilterParallel
  by_cases h0 : slice.length = 0
  · rw [if_pos h0]
    have : slice = [] := List.length_eq_zero.mp h0
    simp [this, Filter]
  · rw [if_neg h0]
    by_cases hsmall : slice.length < config.WorkerCount
    · rw [if_pos hsmall]
    · rw [if_neg hsmall]
      show (List.range slice.length).filterMap _ = Filter slice predicate
      rw [Filter, filter_eq_range_filterMap predicate slice]
      apply List.filterMap_congr
      intro i hi
      have hmem : i ∈ arrival := harr.mem_iff.mpr hi
      rw [buildResultMap_eq slice predicate arrival i hmem]

/-- Witness for C2 at a concrete input that takes the worker-pool branch. -/
theorem filterParallel_eq_filter_witness :
    FilterParallel [1, 2, 3, 4, 5] (fun x => decide (x % 2 = 0)) ⟨2, 5⟩
      [4, 2, 0, 1, 3] = Filter [1, 2, 3, 4, 5] (fun x => decide (x % 2 = 0)) ∧
    Filter [1, 2, 3, 4, 5] (fun x => decide (x % 2 = 0)) = [2, 4] :=
  ⟨filterParallel_eq_filter [1, 2, 3, 4, 5] (fun x => decide (x % 2 = 0))
      ⟨2, 5⟩ [4, 2, 0, 1, 3] (by decide) (by decide), by decide⟩

/-! ### C3 helpers: associative chunked folding -/

theorem foldl_op_assoc {op : τ → τ → τ}
    (hassoc : ∀ a b c, op (op a b) c = op a (op b c)) :
    ∀ (l : List τ) (a b : τ), l.foldl op (op a b) = op a (l.foldl op b)
  | [], _, _ => rfl
  | x :: xs, a, b => by
    rw [List.foldl_cons, List.foldl_cons, hassoc a b x,
      foldl_op_assoc hassoc xs a (op b x)]

theorem foldl_from_identity {op : τ → τ → τ} {identity : τ}
    (hassoc : ∀ a b c, op (op a b) c = op a (op b c))
    (hidr : ∀ a, op a identity = a) (l : List τ) (a : τ) :
    l.foldl op a = op a (l.foldl op identity) := by
  have := foldl_op_assoc hassoc l a identity
  rwa [hidr a] at this

theorem chunkGo_flatten_aux (sz : Nat) :
    ∀ (n : Nat) (xs : List τ), xs.length ≤ n → (chunkGo sz xs).flatten = xs := by
  intro n
  induction n with
  | zero =>
    intro xs h
    have h0 : xs.length = 0 := Nat.le_zero.mp h
    rw [chunkGo, dif_pos h0]
    exact (List.length_eq_zero.mp h0).symm
  | succ n ih =>
    intro xs h
    rw [chunkGo]
    by_cases h0 : xs.length = 0
    · rw [dif_pos h0]
      exact (List.length_eq_zero.mp h0).symm
    · rw [dif_neg h0, List.flatten_cons,
        ih (xs.drop (sz + 1)) (by simp only [List.length_drop]; omega),
        List.take_append_drop]

theorem chunkGo_flatten (sz : Nat) (xs : List τ) :
    (chunkGo sz xs).flatten = xs :=
  chunkGo_flatten_aux sz xs.length xs (Nat.le_refl _)

theorem Chunk_flatten (slice : List τ) (size : Nat) (hs : 1 ≤ size) :
    (Chunk slice size).flatten = slice := by
  rw [Chunk, if_neg (by omega)]
  exact chunkGo_flatten (size - 1) slice

theorem foldl_map_chunks {op : τ → τ → τ} {identity : τ}
    (hassoc : ∀ a b c, op (op a b) c = op a (op b c))
    (hidr : ∀ a, op a identity = a) :
    ∀ (chunks : List (List τ)) (a : τ),
      (chunks.map (fun c => c.foldl op identity)).foldl op a =
        chunks.flatten.foldl op a
  | [], _ => rfl
  | c :: cs, a => by
    rw [List.map_cons, List.foldl_cons, List.flatten_cons, List.foldl_append,
      foldl_map_chunks hassoc hidr cs (op a (c.foldl op identity)),
      ← foldl_from_identity hassoc hidr c a]

/-- C3: for every sequence, every associative operator with a two-sided
identity, and every config with worker count ≥ 1, `ReduceParallel` equals the
sequential left fold `Reduce`, including empty and singleton inputs.  (The
per-chunk partial results land in distinct preallocated slots, so the outcome
is the same under every worker schedule.) -/
theorem reduceParallel_eq_reduce (slice : List τ) (op : τ → τ → τ)
    (identity : τ) (config : ParallelConfig)
    (hassoc : ∀ a b c, op (op a b) c = op a (op b c))
    (hidl : ∀ a, op identity a = a) (hidr : ∀ a, op a identity = a)
    (hw : 1 ≤ config.WorkerCount) :
    ReduceParallel slice op identity config = Reduce slice op identity := by
  unfold ReduceParallel
  by_cases h0 : slice.length = 0
  · rw [if_pos h0]
    have : slice = [] := List.length_eq_zero.mp h0
    simp [this, Reduce]
  · rw [if_neg h0]
    by_cases h1 : slice.length = 1
    · rw [if_pos h1]
      match slice, h1 with
      | [x], _ => simp [Reduce, hidl]
    · rw [if_neg h1]
      by_cases hsmall : slice.length < config.WorkerCount
      · rw [if_pos hsmall]; rfl
      · rw [if_neg hsmall]
        show (List.map _ _).foldl op identity = Reduce slice op identity
        rw [foldl_map_chunks hassoc hidr]
        have hcs : ∀ q : Nat, 1 ≤ if q = 0 then 1 else q := by
          intro q
          by_cases hq : q = 0
          · simp [hq]
          · rw [if_neg hq]; omega
        rw [Chunk_flatten slice _ (hcs _)]
        rfl

/-- Witness for C3 at a concrete input that takes the chunked parallel
branch. -/
theorem reduceParallel_eq_reduce_witness :
    ReduceParallel [1, 2, 3, 4, 5] (fun a b => a + b) 0 ⟨2, 5⟩ =
      Reduce [1, 2, 3, 4, 5] (fun a b => a + b) 0 ∧
    Reduce [1, 2, 3, 4, 5] (fun a b => a + b) 0 = 15 :=
  ⟨reduceParallel_eq_reduce [1, 2, 3, 4, 5] (fun a b => a + b) 0 ⟨2, 5⟩
      (fun a b c => Nat.add_assoc a b c) (fun a => Nat.zero_add a)
      (fun a => Nat.add_zero a) (by decide), by decide⟩

/-! ### C5 helpers: chunk counting and batch processing -/

theorem chunkGo_length_aux (sz : Nat) :
    ∀ (n : Nat) (xs : List τ), xs.length ≤ n →
      (chunkGo sz xs).length = (xs.length + sz) / (sz + 1) := by
  intro n
  induction n with
  | zero =>
    intro xs h
    have h0 : xs.length = 0 := Nat.le_zero.mp h
    rw [chunkGo, dif_pos h0, h0, List.length_nil, Nat.zero_add,
      Nat.div_eq_of_lt (Nat.lt_succ_self sz)]
  | succ n ih =>
    intro xs h
    rw [chunkGo]
    by_cases h0 : xs.length = 0
    · rw [dif_pos h0, h0, List.length_nil, Nat.zero_add,
        Nat.div_eq_of_lt (Nat.lt_succ_self sz)]
    · rw [dif_neg h0, List.length_cons,
        ih (xs.drop (sz + 1)) (by simp only [List.length_drop]; omega),
        List.length_drop]
      by_cases hbig : sz + 1 ≤ xs.length
      · rw [show xs.length + sz = xs.length - (sz + 1) + sz + (sz + 1)
            by omega,
          Nat.add_div_right _ (Nat.succ_pos sz)]
      · rw [show xs.length - (sz + 1) = 0 by omega, Nat.zero_add,
          Nat.div_eq_of_lt (Nat.lt_succ_self sz),
          show xs.length + sz = xs.length - 1 + (sz + 1) by omega,
          Nat.add_div_right _ (Nat.succ_pos sz),
          Nat.div_eq_of_lt (show xs.length - 1 < sz + 1 by omega)]

theorem chunkGo_length (sz : Nat) (xs : List τ) :
    (chunkGo sz xs).length = (xs.length + sz) / (sz + 1) :=
  chunkGo_length_aux sz xs.length xs (Nat.le_refl _)

theorem chunkGo_mem_length_aux (sz : Nat) :
    ∀ (n : Nat) (xs : List τ), xs.length ≤ n →
      ∀ c ∈ chunkGo sz xs, c.length ≤ sz + 1 := by
  intro n
  induction n with
  | zero =>
    intro xs h c hc
    rw [chunkGo, dif_pos (Nat.le_zero.mp h)] at hc
    exact absurd hc (by simp)
  | succ n ih =>
    intro xs h c hc
    rw [chunkGo] at hc
    by_cases h0 : xs.length = 0
    · rw [dif_pos h0] at hc
      exact absurd hc (by simp)
    · rw [dif_neg h0] at hc
      rcases List.mem_cons.mp hc with hc | hc
      · rw [hc, List.length_take]
        omega
      · exact ih (xs.drop (sz + 1))
          (by simp only [List.length_drop]; omega) c hc

theorem Chunk_length (slice : List τ) (size : Nat) (hs : 1 ≤ size) :
    (Chunk slice size).length = (slice.length + size - 1) / size := by
  rw [Chunk, if_neg (by omega), chunkGo_length,
    show size - 1 + 1 = size by omega,
    show slice.length + (size - 1) = slice.length + size - 1 by omega]

theorem Chunk_mem_length (slice : List τ) (size : Nat) (hs : 1 ≤ size) :
    ∀ c ∈ Chunk slice size, c.length ≤ size := by
  intro c hc
  rw [Chunk, if_neg (by omega)] at hc
  have := chunkGo_mem_length_aux (size - 1) slice.length slice
    (Nat.le_refl _) c hc
  omega

theorem processBatches_ok (processor : List τ → Except ε (List ρ)) :
    ∀ (cs : List (List τ)) (outs : List (List ρ)),
      cs.map processor = outs.map Except.ok →
      processBatches processor cs = .ok outs.flatten
  | [], outs, h => by
    have : outs = [] := by
      cases outs with
      | nil => rfl
      | cons o os => simp at h
    rw [this]
    rfl
  | c :: cs, outs, h => by
    cases outs with
    | nil => simp at h
    | cons o os =>
      rw [List.map_cons, List.map_cons] at h
      have h1 : processor c = Except.ok o := (List.cons.injEq _ _ _ _ ▸ h).1
      have h2 : cs.map processor = os.map Except.ok :=
        (List.cons.injEq _ _ _ _ ▸ h).2
      rw [processBatches, h1, processBatches_ok processor cs os h2]
      rfl

theorem flatten_length_congr :
    ∀ (cs : List (List τ)) (outs : List (List ρ)),
      cs.map List.length = outs.map List.length →
      outs.flatten.length = cs.flatten.length
  | [], outs, h => by
    have : outs = [] := by
      cases outs with
      | nil => rfl
      | cons o os => simp at h
    rw [this]
    rfl
  | c :: cs, outs, h => by
    cases outs with
    | nil => simp at h
    | cons o os =>
      rw [List.map_cons, List.map_cons] at h
      have h1 : c.length = o.length := (List.cons.injEq _ _ _ _ ▸ h).1
      have h2 : cs.map List.length = os.map List.length :=
        (List.cons.injEq _ _ _ _ ▸ h).2
      rw [List.flatten_cons, List.flatten_cons, List.length_append,
        List.length_append, h1, flatten_length_congr cs os h2]

/-- C5: with batch size ≥ 1 and a transform that succeeds on every batch
returning one output item per input item (`outs` lists the per-batch outputs
in batch order), `Process` splits the input into `ceil (N / b)` batches of at
most `b` items and returns the per-batch outputs concatenated in batch-index
order, a flat sequence of length `N`; for `N = 0` (where `outs = []` is
forced) this specializes to an immediate `ok []`. -/
theorem batchProcessor_process_spec (bp : BatchProcessor τ ρ ε)
    (data : List τ) (outs : List (List ρ))
    (hb : 1 ≤ bp.batchSize)
    (hok : (Chunk data bp.batchSize).map bp.processor = outs.map Except.ok)
    (hlen : (Chunk data bp.batchSize).map List.length = outs.map List.length) :
    bp.Process data = .ok outs.flatten ∧
    outs.flatten.length = data.length ∧
    (Chunk data bp.batchSize).length =
      (data.length + bp.batchSize - 1) / bp.batchSize ∧
    ∀ c ∈ Chunk data bp.batchSize, c.length ≤ bp.batchSize := by
  refine ⟨?_, ?_, Chunk_length data bp.batchSize hb,
    Chunk_mem_length data bp.batchSize hb⟩
  · rw [BatchProcessor.Process]
    by_cases h0 : data.length = 0
    · rw [if_pos h0]
      have hd : data = [] := List.length_eq_zero.mp h0
      have hout : outs = [] := by
        rw [hd] at hok
        have : (Chunk ([] : List τ) bp.batchSize) = [] := by
          rw [Chunk]
          by_cases hz : bp.batchSize = 0
          · rw [if_pos hz]
          · rw [if_neg hz, chunkGo]
            simp
        rw [this] at hok
        cases outs with
        | nil => rfl
        | cons o os => simp at hok
      rw [hout]
      rfl
    · rw [if_neg h0]
      exact processBatches_ok bp.processor _ outs hok
  · rw [flatten_length_congr _ _ hlen, Chunk_flatten data bp.batchSize hb]

/-- Witness for C5: batch size 3 over 7 items, doubling transform. -/
theorem batchProcessor_process_spec_witness :
    c5bp.Process [1, 2, 3, 4, 5, 6, 7] =
      Except.ok ([[2, 4, 6], [8, 10, 12], [14]] : List (List Nat)).flatten ∧
    ([[2, 4, 6], [8, 10, 12], [14]] : List (List Nat)).flatten =
      [2, 4, 6, 8, 10, 12, 14] :=
  ⟨(batchProcessor_process_spec c5bp [1, 2, 3, 4, 5, 6, 7]
      [[2, 4, 6], [8, 10, 12], [14]]
      (by decide) (by simp [Chunk, chunkGo, c5bp])
      (by simp [Chunk, chunkGo, c5bp])).1, by decide⟩

/-! ### C9 helpers: token bucket -/

theorem waitN_of_le : ∀ (n t c : Nat), n ≤ t →
    waitN n ⟨t, c⟩ = some ⟨t - n, c⟩
  | 0, t, c, _ => by rw [waitN, Nat.sub_zero]
  | n + 1, t, c, h => by
    show (waitTry ⟨t, c⟩).bind (waitN n) = some ⟨t - (n + 1), c⟩
    rw [waitTry]
    dsimp only
    rw [if_pos (by omega : 0 < t)]
    show waitN n ⟨t - 1, c⟩ = some ⟨t - (n + 1), c⟩
    rw [waitN_of_le n (t - 1) c (by omega),
      show t - 1 - n = t - (n + 1) by omega]

/-- C9: a rate limiter created with `rps = r ≥ 1` starts with a full bucket of
capacity `r`: the first `r` `Wait` calls all succeed immediately, draining the
bucket to 0; the next `Wait` blocks; one refill tick then adds one token,
letting the blocked `Wait` succeed; and a refill tick on the freshly created
(full) limiter drops its token, leaving the limiter unchanged. -/
theorem rateLimiter_token_bucket (r : Nat) (hr : 1 ≤ r) :
    waitN r (NewRateLimiter r) = some ⟨0, r⟩ ∧
    waitTry ⟨0, r⟩ = none ∧
    refillTick ⟨0, r⟩ = ⟨1, r⟩ ∧
    waitTry (refillTick ⟨0, r⟩) = some ⟨0, r⟩ ∧
    refillTick (NewRateLimiter r) = NewRateLimiter r := by
  have h1 : waitN r (NewRateLimiter r) = some ⟨0, r⟩ := by
    rw [NewRateLimiter, waitN_of_le r r r (Nat.le_refl r), Nat.sub_self]
  have h3 : refillTick ⟨0, r⟩ = ⟨1, r⟩ := by
    rw [refillTick]
    dsimp only
    rw [if_pos (by omega : 0 < r)]
  have h2 : waitTry ⟨0, r⟩ = none := by
    rw [waitTry]
    dsimp only
    rw [if_neg (by omega : ¬ 0 < 0)]
  refine ⟨h1, h2, h3, ?_, ?_⟩
  · rw [h3, waitTry]
    dsimp only
    rw [if_pos (by omega : 0 < 1)]
  · rw [NewRateLimiter, refillTick]
    dsimp only
    rw [if_neg (by omega : ¬ r < r)]

/-- Witness for C9 at `r = 2`. -/
theorem rateLimiter_token_bucket_witness :
    waitN 2 (NewRateLimiter 2) = some ⟨0, 2⟩ ∧
    waitTry ⟨0, 2⟩ = none ∧
    refillTick ⟨0, 2⟩ = ⟨1, 2⟩ ∧
    waitTry (refillTick ⟨0, 2⟩) = some ⟨0, 2⟩ ∧
    refillTick (NewRateLimiter 2) = NewRateLimiter 2 :=
  rateLimiter_token_bucket 2 (by decide)

/-- C10: on an empty (or nil) input slice, `MapParallelWithConfig` and
`FilterParallel` return nil, `ForEachParallel` performs no invocations,
and `MapWithContext` returns `(nil, nil)` — under every config, every
schedule (including an already-cancelled context), and independently of the
supplied per-item function (the result for one function equals the result for
any other, so the function is never consulted). -/
theorem empty_input_behavior [Inhabited τ] (f g : τ → ρ)
    (config : ParallelConfig) (order arrival : List Nat) (zero : ρ)
    (p q : τ → Bool) (m₁ m₂ : τ → Except ε ρ) (sched : MWCSched) :
    MapParallelWithConfig ([] : List τ) f config order zero = [] ∧
    MapParallelWithConfig ([] : List τ) f config order zero =
      MapParallelWithConfig [] g config order zero ∧
    FilterParallel ([] : List τ) p config arrival = [] ∧
    FilterParallel ([] : List τ) p config arrival =
      FilterParallel [] q config arrival ∧
    ForEachParallelCalls ([] : List τ) config = [] ∧
    MapWithContext ([] : List τ) m₁ sched zero = .ok [] ∧
    MapWithContext ([] : List τ) m₁ sched zero =
      MapWithContext [] m₂ sched zero := by
  refine ⟨rfl, rfl, rfl, rfl, rfl, rfl, rfl⟩

/-! ### C7 helpers: the Take stage -/

theorem takeLoop_eq_take : ∀ (l : List α) (n count : Nat),
    takeLoop n count l = l.take (n - count)
  | [], _, _ => by rw [takeLoop, List.take_nil]
  | x :: xs, n, count => by
    rw [takeLoop]
    by_cases h : n ≤ count
    · rw [if_pos h, show n - count = 0 by omega, List.take_zero]
    · rw [if_neg h, takeLoop_eq_take xs n (count + 1),
        show n - count = (n - (count + 1)) + 1 by omega, List.take_succ_cons]

/-- C7: `NewStream(S).Take(k).Collect()` equals the first `min k (len S)`
elements of `S` and has length `min k (len S)`, for every `k ≥ 0` including
`k = 0` and `k > len S`. -/
theorem stream_take_collect (l : List α) (k : Nat) :
    (StreamM.Collect
      (StreamM.Take (NewStream ([] : Heap (Stage α)) l).1
        (NewStream ([] : Heap (Stage α)) l).2 k).1
      (fun _ => [])
      (StreamM.Take (NewStream ([] : Heap (Stage α)) l).1
        (NewStream ([] : Heap (Stage α)) l).2 k).2).1 = l.take k ∧
    (StreamM.Collect
      (StreamM.Take (NewStream ([] : Heap (Stage α)) l).1
        (NewStream ([] : Heap (Stage α)) l).2 k).1
      (fun _ => [])
      (StreamM.Take (NewStream ([] : Heap (Stage α)) l).1
        (NewStream ([] : Heap (Stage α)) l).2 k).2).1.length =
      min k l.length := by
  have hred :
      (StreamM.Collect
        (StreamM.Take (NewStream ([] : Heap (Stage α)) l).1
          (NewStream ([] : Heap (Stage α)) l).2 k).1
        (fun _ => [])
        (StreamM.Take (NewStream ([] : Heap (Stage α)) l).1
          (NewStream ([] : Heap (Stage α)) l).2 k).2).1 = takeLoop k 0 l :=
    rfl
  rw [hred, takeLoop_eq_take l k 0, Nat.sub_zero]
  exact ⟨rfl, List.length_take k l⟩

/-! ### C8: Stream reuse across terminal operations -/

/-- The amended C8: terminal operations re-materialize the stage chain from
the stored source, so a Stream whose source regenerates its elements on every
call — `NewStream`'s slice source — can be reused: a second `Collect` of the
same Stream value returns the same result as the first. -/
theorem collect_reusable_of_slice_source (h : Heap (Stage α)) (cs : ChanSt α)
    (s : StreamM α) (l : List α) (hsrc : s.src = Src.ofSlice l) :
    (StreamM.Collect h (StreamM.Collect h cs s).2 s).1 =
      (StreamM.Collect h cs s).1 := by
  rw [StreamM.Collect, StreamM.Collect, hsrc]
  rfl

/-- Witness for the amended C8: a slice-sourced stream with one Map stage,
collected twice. -/
theorem collect_reusable_of_slice_source_witness :
    (StreamM.Collect
      (StreamM.Map (NewStream ([] : Heap (Stage Nat)) [1, 2]).1
        (NewStream ([] : Heap (Stage Nat)) [1, 2]).2 (fun x => x + 1)).1
      (StreamM.Collect
        (StreamM.Map (NewStream ([] : Heap (Stage Nat)) [1, 2]).1
          (NewStream ([] : Heap (Stage Nat)) [1, 2]).2 (fun x => x + 1)).1
        (fun _ => [])
        (StreamM.Map (NewStream ([] : Heap (Stage Nat)) [1, 2]).1
          (NewStream ([] : Heap (Stage Nat)) [1, 2]).2 (fun x => x + 1)).2).2
      (StreamM.Map (NewStream ([] : Heap (Stage Nat)) [1, 2]).1
        (NewStream ([] : Heap (Stage Nat)) [1, 2]).2 (fun x => x + 1)).2).1 =
    (StreamM.Collect
      (StreamM.Map (NewStream ([] : Heap (Stage Nat)) [1, 2]).1
        (NewStream ([] : Heap (Stage Nat)) [1, 2]).2 (fun x => x + 1)).1
      (fun _ => [])
      (StreamM.Map (NewStream ([] : Heap (Stage Nat)) [1, 2]).1
        (NewStream ([] : Heap (Stage Nat)) [1, 2]).2 (fun x => x + 1)).2).1 :=
  collect_reusable_of_slice_source _ _ _ [1, 2] rfl

/-- Counterexample to C8 as stated: a Stream from `NewStreamFromChannel` over
a (closed) channel holding `[1]` collects to `[1]` the first time, but its
source hands back the same, now drained, channel on the second run, which
collects to `[]` — rerunning the same terminal operation on the same Stream
value does not reproduce the first result. -/
theorem collect_channel_not_reusable :
    (StreamM.Collect
      (NewStreamFromChannel ([] : Heap (Stage Nat)) 0).1
      (fun j => if j = 0 then [1] else [])
      (NewStreamFromChannel ([] : Heap (Stage Nat)) 0).2).1 = [1] ∧
    (StreamM.Collect
      (NewStreamFromChannel ([] : Heap (Stage Nat)) 0).1
      (StreamM.Collect
        (NewStreamFromChannel ([] : Heap (Stage Nat)) 0).1
        (fun j => if j = 0 then [1] else [])
        (NewStreamFromChannel ([] : Heap (Stage Nat)) 0).2).2
      (NewStreamFromChannel ([] : Heap (Stage Nat)) 0).2).1 = [] ∧
    ([] : List Nat) ≠ [1] := by
  refine ⟨rfl, rfl, by decide⟩

/-- C6: the code violates the never-mutate claim.  `s3` has pipeline length 3
and capacity 4; deriving `s4 := s3.Map(x+1)` and then `s5 := s3.Filter(false)`
makes the second `append` overwrite the backing-array slot holding `s4`'s
fourth stage.  The previously returned `s4` collects to `[2]` before `s5` is
created, and to `[]` (the filter stage replaced its map stage) afterwards —
deriving `s5` mutated `s4`. -/
theorem stream_append_aliasing_bug :
    (StreamM.Collect c6s4.1 (fun _ => []) c6s4.2).1 = [2] ∧
    (StreamM.Collect c6s5.1 (fun _ => []) c6s4.2).1 = [] ∧
    ([] : List Nat) ≠ [2] := by
  refine ⟨rfl, rfl, by decide⟩

/-- C4: the code violates the claim under a reachable schedule.  With input
`[0]`, an always-successful mapper, and the context cancelled before any item
completes (`c4sched`: nothing dispatched, nothing processed, no worker error,
final `select` takes `done` with an empty `errors` channel), `MapWithContext`
returns a zero-filled full-length result with a nil error — not the context's
cancellation error, and a nil-error "success" despite the cancellation. -/
theorem mapWithContext_cancellation_race :
    MWCValid 2 [0] c4mapper c4sched ∧
    c4sched.cancelled = true ∧
    c4sched.processed = 0 ∧
    MapWithContext [0] c4mapper c4sched 0 = .ok [0] := by
  constructor
  · unfold MWCValid
    decide
  · exact ⟨rfl, rfl, rfl⟩

/-- Witness for C1 at a concrete input that takes the worker-pool branch. -/
theorem mapParallelWithConfig_eq_map_witness :
    MapParallelWithConfig [10, 20, 30] (fun x => x + 1) ⟨2, 5⟩ [2, 0, 1] 0 =
      Map [10, 20, 30] (fun x => x + 1) ∧
    Map [10, 20, 30] (fun x => x + 1) = [11, 21, 31] :=
  ⟨(mapParallelWithConfig_eq_map [10, 20, 30] (fun x => x + 1) ⟨2, 5⟩
      [2, 0, 1] 0 (by decide) (by decide)).1, by decide⟩

end Funky


